import Mathlib

/-!
Verification development for the bounded LRU container family
(LRUSet / LRUDict) of the yumako repository.

The container module itself is not present in the source tree (only its
test suite src/tests/test_lru.py and example callers are), so the data
model and the operations below are modelled from the specification
(spec.md sections 3, 4 and 7), with the error classes refined by the
observable behaviour asserted in src/tests/test_lru.py.
-/

set_option autoImplicit false
set_option linter.unusedSectionVars false

namespace YumakoLru

/-- Modelled from the spec: a payload object.  The missing code is the
Reference Holder of yumako/lru.py.  In weak mode only payloads whose type
supports being weakly observed may be stored; the flag `weakrefable`
models that property of the payload type (Python: whether the object
admits a weakref).  `id` is the object identity. -/
structure Obj where
  id : Nat
  weakrefable : Bool
deriving DecidableEq, Repr

/-- Modelled from the spec: one entry of the Entry Store,
`(key, holder, recency_rank)`.  The holder is represented by the payload
it holds; strong versus weak mode is a container-level flag. -/
structure Entry (κ : Type) where
  key : κ
  payload : Obj
  rank : Nat
deriving DecidableEq, Repr

/-- Modelled from the spec: the container state shared by the Set and Map
facades of yumako/lru.py.  `entries` holds the live entries, most recent
first (the store order is a representation choice; the spec store is a
hash map), `counter` is the monotonically increasing recency counter and
`version` is the structural-mutation epoch used by the
concurrent-modification guard. -/
structure LRU (κ : Type) where
  capacity : Nat
  weak : Bool
  counter : Nat
  entries : List (Entry κ)
  version : Nat
deriving Repr

/-- Modelled from the spec: the errors the container can raise.  The spec
calls the construction failure a configuration error; the test suite
(src/tests/test_lru.py, test_set_init / test_dict_init) distinguishes a
TypeError for a non-integer capacity from a ValueError for a non-positive
one, and the model follows the tests. -/
inductive LruError where
  | typeError
  | valueError
  | concurrentModification
deriving DecidableEq, Repr

/-- Modelled from the spec: the capacity argument as passed by a Python
caller, which may fail to be an integer (for example the string "5"). -/
inductive CapArg where
  | int (n : Int)
  | str (s : String)
  | other
deriving DecidableEq, Repr

/-- Modelled from the spec: construction with explicit capacity and weak
arguments.  A non-integer capacity is a TypeError, a non-positive integer
capacity a ValueError; a positive integer capacity succeeds with an empty
container. -/
def mkLRU (κ : Type) (cap : CapArg) (weak : Bool) : Except LruError (LRU κ) :=
  match cap with
  | .int n =>
      if n ≤ 0 then .error .valueError
      else .ok ⟨n.toNat, weak, 0, [], 0⟩
  | _ => .error .typeError

/-- Modelled from the spec: construction without an explicit weak
argument; the spec declares `weak: boolean (default true)`. -/
def mkLRUDefault (κ : Type) (cap : CapArg) : Except LruError (LRU κ) :=
  mkLRU κ cap true

variable {κ : Type} [DecidableEq κ]

/-- Live size of the container. -/
def size (s : LRU κ) : Nat := s.entries.length

/-- Lookup of the entry stored under a key. -/
def findEntry (s : LRU κ) (k : κ) : Option (Entry κ) :=
  s.entries.find? (fun e => decide (e.key = k))

/-- Membership of a key among the live entries. -/
def keyPresent (s : LRU κ) (k : κ) : Bool :=
  (findEntry s k).isSome

/-- Removal of every entry stored under a key from the raw entry list. -/
def eraseKey (l : List (Entry κ)) (k : κ) : List (Entry κ) :=
  l.filter (fun e => !(decide (e.key = k)))

/-- One step of insertion sort by descending recency rank. -/
def insertDesc (e : Entry κ) : List (Entry κ) → List (Entry κ)
  | [] => [e]
  | x :: xs => if x.rank ≤ e.rank then e :: x :: xs else x :: insertDesc e xs

/-- Modelled from the spec: sort live entries by recency rank descending
(the first phase of compaction). -/
def sortRankDesc : List (Entry κ) → List (Entry κ)
  | [] => []
  | x :: xs => insertDesc x (sortRankDesc xs)

/-- Modelled from the spec: compaction retains exactly the top `capacity`
entries by recency rank and discards the rest; it is a structural
mutation, so it bumps the version epoch. -/
def compact (s : LRU κ) : LRU κ :=
  ⟨s.capacity, s.weak, s.counter, (sortRankDesc s.entries).take s.capacity,
   s.version + 1⟩

/-- The pre-compaction step of an insert: store the key with a fresh
recency rank taken from the counter, dropping any previous entry for the
same key. -/
def grow (s : LRU κ) (k : κ) (p : Obj) : LRU κ :=
  ⟨s.capacity, s.weak, s.counter + 1,
   ⟨k, p, s.counter⟩ :: eraseKey s.entries k, s.version + 1⟩

/-- Modelled from the spec: the raw Entry Store `put`.  It inserts or
overwrites the key with a fresh recency rank taken from the counter and,
when the insertion grew the size beyond twice the capacity, runs
compaction. -/
def putRaw (s : LRU κ) (k : κ) (p : Obj) : LRU κ :=
  if 2 * s.capacity < (grow s k p).entries.length then compact (grow s k p)
  else grow s k p

/-- Modelled from the spec: the insert path of the facades (LRUSet.add,
LRUDict subscript assignment / set).  In weak mode a payload whose type
is not weakly observable raises a TypeError surfaced to the caller; the
container state is unchanged in that case. -/
def put (s : LRU κ) (k : κ) (p : Obj) : Except LruError (LRU κ) :=
  if s.weak && !p.weakrefable then .error .typeError
  else .ok (putRaw s k p)

/-- Modelled from the spec: `touch` refreshes the recency rank of an
existing live key and reports whether the key was present; reads count
as structural for the iteration guard. -/
def touch (s : LRU κ) (k : κ) : LRU κ × Bool :=
  match findEntry s k with
  | none => (s, false)
  | some e =>
      (⟨s.capacity, s.weak, s.counter + 1,
        ⟨k, e.payload, s.counter⟩ :: eraseKey s.entries k, s.version + 1⟩,
       true)

/-- Modelled from the spec: `remove` (discard / pop / delete) deletes a
key if present and is a silent no-op when the key is absent. -/
def removeKey (s : LRU κ) (k : κ) : LRU κ × Option Obj :=
  match findEntry s k with
  | none => (s, none)
  | some e =>
      (⟨s.capacity, s.weak, s.counter, eraseKey s.entries k, s.version + 1⟩,
       some e.payload)

/-- Modelled from the spec: `get` with a default returns the live value
(refreshing recency) or the supplied default when the key is absent. -/
def getD (s : LRU κ) (k : κ) (d : Option Obj) : LRU κ × Option Obj :=
  match findEntry s k with
  | none => (s, d)
  | some e => ((touch s k).1, some e.payload)

/-- Modelled from the spec: `clear` removes every entry. -/
def clear (s : LRU κ) : LRU κ :=
  ⟨s.capacity, s.weak, s.counter, [], s.version + 1⟩

/-- Modelled from the spec: the effect of the host garbage collector.
`dead p = true` models that payload p has no external owner left.  In
weak mode the liveness callbacks remove every entry whose payload was
collected; in strong mode collection of external references never evicts
anything. -/
def gcCollect (dead : Obj → Bool) (s : LRU κ) : LRU κ :=
  if s.weak then
    ⟨s.capacity, s.weak, s.counter,
     s.entries.filter (fun e => !(dead e.payload)), s.version + 1⟩
  else s

/-- Modelled from the spec: `update` applies each key/value pair in order
through the same insert path. -/
def updatePairs (s : LRU κ) : List (κ × Obj) → Except LruError (LRU κ)
  | [] => .ok s
  | (k, p) :: rest =>
      match put s k p with
      | .error e => .error e
      | .ok s2 => updatePairs s2 rest

/-- Modelled from the spec: an open iteration; it captures the version
epoch at creation. -/
structure LRUIter (κ : Type) where
  version : Nat
  remaining : List (Entry κ)

/-- Start of an iteration over the live entries. -/
def iterStart (s : LRU κ) : LRUIter κ :=
  ⟨s.version, s.entries⟩

/-- Modelled from the spec: one advance of an open iteration.  The
iterator checks its captured epoch against the current container epoch
on every advance and fails fast with the concurrent-modification error
on mismatch. -/
def iterNext (s : LRU κ) (it : LRUIter κ) :
    Except LruError (Option (Entry κ × LRUIter κ)) :=
  if it.version = s.version then
    match it.remaining with
    | [] => .ok none
    | e :: rest => .ok (some (e, ⟨it.version, rest⟩))
  else .error .concurrentModification

/-- Modelled from the spec: the Set facade stores the element as both key
and payload. -/
def addElem (s : LRU Obj) (x : Obj) : Except LruError (LRU Obj) :=
  put s x x

/-- The live element list of a set-facade container. -/
def elems (s : LRU Obj) : List Obj :=
  s.entries.map (fun e => e.payload)

/-- Modelled from the spec: subset comparison against the live element
set of the other operand. -/
def subsetOfList (s : LRU Obj) (t : List Obj) : Bool :=
  (elems s).all (fun x => decide (x ∈ t))

/-- Modelled from the spec: superset comparison against the live element
set of the other operand. -/
def supersetOfList (s : LRU Obj) (t : List Obj) : Bool :=
  t.all (fun x => decide (x ∈ elems s))

/-- Modelled from the spec: strict subset comparison. -/
def ltList (s : LRU Obj) (t : List Obj) : Bool :=
  subsetOfList s t && !(supersetOfList s t)

/-- Modelled from the spec: strict superset comparison. -/
def gtList (s : LRU Obj) (t : List Obj) : Bool :=
  supersetOfList s t && !(subsetOfList s t)

/-- Modelled from the spec: disjointness against the live element set of
the other operand. -/
def isDisjointList (s : LRU Obj) (t : List Obj) : Bool :=
  (elems s).all (fun x => !(decide (x ∈ t)))

/-- Modelled from the spec: equality between two instances compares only
their live element sets, ignoring capacity and weak configuration. -/
def eqInst (a b : LRU Obj) : Bool :=
  subsetOfList a (elems b) && subsetOfList b (elems a)

/-- The empty container with a given capacity and mode. -/
def emptyLRU (κ : Type) (c : Nat) (w : Bool) : LRU κ :=
  ⟨c, w, 0, [], 0⟩

/-- Entries are strictly descending in recency rank (most recent first). -/
def RankSorted (l : List (Entry κ)) : Prop :=
  l.Pairwise (fun a b => b.rank < a.rank)

/-- Well-formedness maintained by every public operation: descending rank
order, ranks below the counter, pairwise distinct keys, and the size
bound of at most twice the capacity. -/
def Wf (s : LRU κ) : Prop :=
  RankSorted s.entries ∧ (∀ e ∈ s.entries, e.rank < s.counter) ∧
  s.entries.Pairwise (fun a b => a.key ≠ b.key) ∧
  s.entries.length ≤ 2 * s.capacity

instance (l : List (Entry κ)) : Decidable (RankSorted l) := by
  unfold RankSorted; infer_instance

instance (s : LRU κ) : Decidable (Wf s) := by
  unfold Wf; infer_instance

/-! ### Basic lemmas about the entry-list operations -/

theorem mem_insertDesc {e a : Entry κ} {l : List (Entry κ)} :
    a ∈ insertDesc e l ↔ a = e ∨ a ∈ l := by
  induction l with
  | nil => simp [insertDesc]
  | cons x xs ih =>
      by_cases h : x.rank ≤ e.rank
      · simp [insertDesc, h]
      · simp only [insertDesc, if_neg h, List.mem_cons, ih]
        tauto

theorem mem_sortRankDesc {a : Entry κ} {l : List (Entry κ)} :
    a ∈ sortRankDesc l ↔ a ∈ l := by
  induction l with
  | nil => simp [sortRankDesc]
  | cons x xs ih => simp [sortRankDesc, mem_insertDesc, ih]

theorem sortRankDesc_eq_self {l : List (Entry κ)} (h : RankSorted l) :
    sortRankDesc l = l := by
  induction l with
  | nil => rfl
  | cons x xs ih =>
      unfold RankSorted at h
      rw [List.pairwise_cons] at h
      rw [sortRankDesc, ih h.2]
      cases xs with
      | nil => rfl
      | cons y ys =>
          have hy : y.rank ≤ x.rank := le_of_lt (h.1 y (by simp))
          simp [insertDesc, hy]

theorem mem_eraseKey {e : Entry κ} {l : List (Entry κ)} {k : κ} :
    e ∈ eraseKey l k ↔ e ∈ l ∧ e.key ≠ k := by
  simp [eraseKey, List.mem_filter]

theorem eraseKey_sublist (l : List (Entry κ)) (k : κ) :
    (eraseKey l k).Sublist l :=
  List.filter_sublist l

theorem eraseKey_eq_self {l : List (Entry κ)} {k : κ}
    (h : ∀ e ∈ l, e.key ≠ k) : eraseKey l k = l := by
  apply List.filter_eq_self.mpr
  intro e he
  simpa using h e he

theorem length_eraseKey_add_one {l : List (Entry κ)} {k : κ} {e : Entry κ}
    (hnd : l.Pairwise (fun a b => a.key ≠ b.key)) (hm : e ∈ l)
    (hk : e.key = k) : (eraseKey l k).length + 1 = l.length := by
  induction l with
  | nil => cases hm
  | cons x xs ih =>
      rw [List.pairwise_cons] at hnd
      by_cases hxk : x.key = k
      · have hrest : eraseKey xs k = xs := by
          apply eraseKey_eq_self
          intro a ha hak
          exact hnd.1 a ha (by rw [hxk, hak])
        have hcons : eraseKey (x :: xs) k = xs := by
          unfold eraseKey at hrest ⊢
          rw [List.filter_cons, hxk]
          simpa using hrest
        rw [hcons]
        simp
      · have hm2 : e ∈ xs := by
          rcases List.mem_cons.mp hm with h1 | h1
          · exact absurd (show x.key = k by rw [← h1]; exact hk) hxk
          · exact h1
        have hih := ih hnd.2 hm2
        have hcons : eraseKey (x :: xs) k = x :: eraseKey xs k := by
          unfold eraseKey
          rw [List.filter_cons]
          simp [hxk]
        rw [hcons]
        simp only [List.length_cons]
        omega

theorem findEntry_eq_none {s : LRU κ} {k : κ} :
    findEntry s k = none ↔ ∀ e ∈ s.entries, e.key ≠ k := by
  simp [findEntry, List.find?_eq_none]

theorem findEntry_some {s : LRU κ} {k : κ} {e : Entry κ}
    (h : findEntry s k = some e) : e ∈ s.entries ∧ e.key = k := by
  refine ⟨List.mem_of_find?_eq_some h, ?_⟩
  have := List.find?_some h
  simpa using this

theorem keyPresent_true_iff {s : LRU κ} {k : κ} :
    keyPresent s k = true ↔ ∃ e ∈ s.entries, e.key = k := by
  simp [keyPresent, findEntry, List.find?_isSome]

theorem keyPresent_false_iff {s : LRU κ} {k : κ} :
    keyPresent s k = false ↔ ∀ e ∈ s.entries, e.key ≠ k := by
  rw [← findEntry_eq_none]
  unfold keyPresent
  cases findEntry s k <;> simp

/-! ### Well-formedness preservation -/

theorem wf_emptyLRU (c : Nat) (w : Bool) : Wf (emptyLRU κ c w) := by
  unfold Wf emptyLRU RankSorted
  simp

theorem grow_sorted {s : LRU κ} {k : κ} {p : Obj}
    (hs : RankSorted s.entries) (hr : ∀ e ∈ s.entries, e.rank < s.counter) :
    RankSorted (grow s k p).entries := by
  unfold RankSorted grow
  rw [List.pairwise_cons]
  refine ⟨?_, ?_⟩
  · intro b hb
    exact hr b ((eraseKey_sublist _ _).subset hb)
  · exact List.Pairwise.sublist (eraseKey_sublist _ _) hs

theorem grow_ranks {s : LRU κ} {k : κ} {p : Obj}
    (hr : ∀ e ∈ s.entries, e.rank < s.counter) :
    ∀ e ∈ (grow s k p).entries, e.rank < (grow s k p).counter := by
  intro e he
  unfold grow at he ⊢
  simp only [List.mem_cons] at he
  rcases he with rfl | he
  · exact Nat.lt_succ_self _
  · exact Nat.lt_succ_of_lt (hr e ((eraseKey_sublist _ _).subset he))

theorem grow_keys {s : LRU κ} {k : κ} {p : Obj}
    (hk : s.entries.Pairwise (fun a b => a.key ≠ b.key)) :
    (grow s k p).entries.Pairwise (fun a b => a.key ≠ b.key) := by
  unfold grow
  rw [List.pairwise_cons]
  refine ⟨?_, List.Pairwise.sublist (eraseKey_sublist _ _) hk⟩
  intro b hb h
  exact (mem_eraseKey.mp hb).2 h.symm

theorem compact_entries {s : LRU κ} (h : RankSorted s.entries) :
    (compact s).entries = s.entries.take s.capacity := by
  show (sortRankDesc s.entries).take s.capacity = s.entries.take s.capacity
  rw [sortRankDesc_eq_self h]

theorem putRaw_capacity (s : LRU κ) (k : κ) (p : Obj) :
    (putRaw s k p).capacity = s.capacity := by
  unfold putRaw
  split <;> rfl

theorem putRaw_weak (s : LRU κ) (k : κ) (p : Obj) :
    (putRaw s k p).weak = s.weak := by
  unfold putRaw
  split <;> rfl

theorem putRaw_counter (s : LRU κ) (k : κ) (p : Obj) :
    (putRaw s k p).counter = s.counter + 1 := by
  unfold putRaw
  split <;> rfl

theorem putRaw_version_gt (s : LRU κ) (k : κ) (p : Obj) :
    s.version < (putRaw s k p).version := by
  unfold putRaw
  split
  · show s.version < s.version + 1 + 1
    omega
  · show s.version < s.version + 1
    omega

theorem putRaw_wf {s : LRU κ} (k : κ) (p : Obj) (h : Wf s) :
    Wf (putRaw s k p) := by
  unfold Wf at h
  obtain ⟨hs, hr, hk, _⟩ := h
  have hgs : RankSorted (grow s k p).entries := grow_sorted hs hr
  have hgr := grow_ranks (s := s) (k := k) (p := p) hr
  have hgk := grow_keys (s := s) (k := k) (p := p) hk
  unfold putRaw
  split
  case isTrue hcond =>
    unfold Wf
    rw [compact_entries hgs]
    refine ⟨?_, ?_, ?_, ?_⟩
    · exact List.Pairwise.sublist (List.take_sublist _ _) hgs
    · intro e he
      exact hgr e ((List.take_sublist _ _).subset he)
    · exact List.Pairwise.sublist (List.take_sublist _ _) hgk
    · have hc : (grow s k p).capacity = s.capacity := rfl
      rw [List.length_take, hc]
      have hc2 : (compact (grow s k p)).capacity = s.capacity := rfl
      rw [hc2]
      omega
  case isFalse hcond =>
    unfold Wf
    refine ⟨hgs, hgr, hgk, ?_⟩
    have hc : (grow s k p).capacity = s.capacity := rfl
    rw [hc]
    omega

theorem touch_wf {s : LRU κ} (k : κ) (h : Wf s) : Wf (touch s k).1 := by
  cases hfind : findEntry s k with
  | none =>
      have heq : (touch s k).1 = s := by
        unfold touch
        rw [hfind]
      rw [heq]
      exact h
  | some e =>
      obtain ⟨hmem, hkey⟩ := findEntry_some hfind
      have heq : (touch s k).1 = grow s k e.payload := by
        unfold touch grow
        rw [hfind]
      rw [heq]
      unfold Wf at h
      obtain ⟨hs, hr, hk, hl⟩ := h
      unfold Wf
      refine ⟨grow_sorted hs hr, grow_ranks hr, grow_keys hk, ?_⟩
      have hlen : (eraseKey s.entries k).length + 1 = s.entries.length :=
        length_eraseKey_add_one hk hmem hkey
      have hg : (grow s k e.payload).entries.length =
          (eraseKey s.entries k).length + 1 := by
        unfold grow
        simp
      have hc : (grow s k e.payload).capacity = s.capacity := rfl
      rw [hg, hlen, hc]
      exact hl

theorem removeKey_wf {s : LRU κ} (k : κ) (h : Wf s) : Wf (removeKey s k).1 := by
  cases hfind : findEntry s k with
  | none =>
      have heq : (removeKey s k).1 = s := by
        unfold removeKey
        rw [hfind]
      rw [heq]
      exact h
  | some e =>
      have heq : (removeKey s k).1 =
          ⟨s.capacity, s.weak, s.counter, eraseKey s.entries k,
           s.version + 1⟩ := by
        unfold removeKey
        rw [hfind]
      rw [heq]
      unfold Wf at h ⊢
      obtain ⟨hs, hr, hk, hl⟩ := h
      exact ⟨List.Pairwise.sublist (eraseKey_sublist _ _) hs,
        fun e2 he2 => hr e2 ((eraseKey_sublist _ _).subset he2),
        List.Pairwise.sublist (eraseKey_sublist _ _) hk,
        le_trans (eraseKey_sublist _ _).length_le hl⟩

theorem getD_wf {s : LRU κ} (k : κ) (d : Option Obj) (h : Wf s) :
    Wf (getD s k d).1 := by
  unfold getD
  cases hfind : findEntry s k with
  | none => exact h
  | some e => exact touch_wf k h

theorem clear_wf (s : LRU κ) : Wf (clear s) := by
  unfold Wf clear RankSorted
  simp

theorem gcCollect_wf {s : LRU κ} (dead : Obj → Bool) (h : Wf s) :
    Wf (gcCollect dead s) := by
  unfold gcCollect
  split
  · unfold Wf at h ⊢
    obtain ⟨hs, hr, hk, hl⟩ := h
    exact ⟨List.Pairwise.sublist (List.filter_sublist _) hs,
      fun e he => hr e ((List.filter_sublist _).subset he),
      List.Pairwise.sublist (List.filter_sublist _) hk,
      le_trans (List.filter_sublist _).length_le hl⟩
  · exact h

theorem put_wf {s s2 : LRU κ} {k : κ} {p : Obj} (h : Wf s)
    (hok : put s k p = .ok s2) : Wf s2 := by
  unfold put at hok
  split at hok
  · exact Except.noConfusion hok
  · injection hok with h2
    rw [← h2]
    exact putRaw_wf k p h

theorem updatePairs_wf {s2 : LRU κ} {ps : List (κ × Obj)} :
    ∀ {s : LRU κ}, Wf s → updatePairs s ps = .ok s2 → Wf s2 := by
  induction ps with
  | nil =>
      intro s h hok
      unfold updatePairs at hok
      injection hok with h2
      rw [← h2]
      exact h
  | cons kp rest ih =>
      intro s h hok
      obtain ⟨k0, p0⟩ := kp
      unfold updatePairs at hok
      cases hput : put s k0 p0 with
      | error e =>
          rw [hput] at hok
          exact Except.noConfusion hok
      | ok s3 =>
          rw [hput] at hok
          exact ih (put_wf h hput) hok

/-! ### Membership after an insert -/

theorem mem_grow {s : LRU κ} {k : κ} {p : Obj} {e : Entry κ}
    (he : e ∈ (grow s k p).entries) :
    e = ⟨k, p, s.counter⟩ ∨ (e ∈ s.entries ∧ e.key ≠ k) := by
  unfold grow at he
  rcases List.mem_cons.mp he with h1 | h1
  · exact Or.inl h1
  · exact Or.inr (mem_eraseKey.mp h1)

theorem mem_putRaw {s : LRU κ} {k : κ} {p : Obj} {e : Entry κ}
    (he : e ∈ (putRaw s k p).entries) :
    e = ⟨k, p, s.counter⟩ ∨ (e ∈ s.entries ∧ e.key ≠ k) := by
  unfold putRaw at he
  split at he
  · exact mem_grow (mem_sortRankDesc.mp ((List.take_sublist _ _).subset he))
  · exact mem_grow he

theorem keyPresent_putRaw_self {s : LRU κ} {k : κ} {p : Obj} (h : Wf s)
    (hc : 0 < s.capacity) : keyPresent (putRaw s k p) k = true := by
  unfold Wf at h
  obtain ⟨hs, hr, _, _⟩ := h
  have hgs : RankSorted (grow s k p).entries := grow_sorted hs hr
  rw [keyPresent_true_iff]
  unfold putRaw
  split
  · rw [compact_entries hgs]
    refine ⟨⟨k, p, s.counter⟩, ?_, rfl⟩
    obtain ⟨m, hm⟩ : ∃ m, s.capacity = m + 1 := ⟨s.capacity - 1, by omega⟩
    have hcap : (grow s k p).capacity = m + 1 := hm
    rw [hcap]
    unfold grow
    rw [List.take_succ_cons]
    exact List.mem_cons_self _ _
  · refine ⟨⟨k, p, s.counter⟩, ?_, rfl⟩
    unfold grow
    exact List.mem_cons_self _ _

theorem keyPresent_putRaw_other {s : LRU κ} {k k2 : κ} {p : Obj}
    (h : keyPresent s k = false) (hne : k2 ≠ k) :
    keyPresent (putRaw s k2 p) k = false := by
  rw [keyPresent_false_iff] at h ⊢
  intro e he
  rcases mem_putRaw he with rfl | ⟨hmem, _⟩
  · exact hne
  · exact h e hmem

/-! ### The scenario of distinct keys inserted in order -/

/-- Payload used in the distinct-keys insertion scenario. -/
def mkObj (n : Nat) : Obj := ⟨n, true⟩

/-- The entry list holding keys n-1, ..., 0 (most recent first), each key
inserted exactly once so that its recency rank equals the key. -/
def descRun : Nat → List (Entry Nat)
  | 0 => []
  | n+1 => ⟨n, mkObj n, n⟩ :: descRun n

/-- Inserting a list of keys in order through the raw insert path. -/
def putSeq (s : LRU Nat) (ks : List Nat) : LRU Nat :=
  ks.foldl (fun a k => putRaw a k (mkObj k)) s

theorem putSeq_cons (s : LRU Nat) (k : Nat) (ks : List Nat) :
    putSeq s (k :: ks) = putSeq (putRaw s k (mkObj k)) ks := rfl

theorem putSeq_append (s : LRU Nat) (l1 l2 : List Nat) :
    putSeq s (l1 ++ l2) = putSeq (putSeq s l1) l2 := by
  unfold putSeq
  rw [List.foldl_append]

theorem putSeq_wf {ks : List Nat} :
    ∀ {s : LRU Nat}, Wf s → Wf (putSeq s ks) := by
  induction ks with
  | nil => exact fun h => h
  | cons k rest ih =>
      intro s h
      rw [putSeq_cons]
      exact ih (putRaw_wf _ _ h)

theorem putSeq_capacity (ks : List Nat) :
    ∀ s : LRU Nat, (putSeq s ks).capacity = s.capacity := by
  induction ks with
  | nil => exact fun _ => rfl
  | cons k rest ih =>
      intro s
      rw [putSeq_cons, ih, putRaw_capacity]

theorem keyPresent_putSeq_other {k : Nat} {ks : List Nat} :
    ∀ {s : LRU Nat}, keyPresent s k = false → (∀ k2 ∈ ks, k2 ≠ k) →
      keyPresent (putSeq s ks) k = false := by
  induction ks with
  | nil => exact fun h _ => h
  | cons k2 rest ih =>
      intro s h hne
      rw [putSeq_cons]
      exact ih (keyPresent_putRaw_other h (hne k2 (by simp)))
        (fun a ha => hne a (by simp [ha]))

theorem mem_descRun {e : Entry Nat} {n : Nat} (h : e ∈ descRun n) :
    e.key < n ∧ e.rank < n := by
  induction n with
  | zero => cases h
  | succ m ih =>
      rcases List.mem_cons.mp h with rfl | h2
      · exact ⟨Nat.lt_succ_self m, Nat.lt_succ_self m⟩
      · obtain ⟨h1, h2r⟩ := ih h2
        exact ⟨Nat.lt_succ_of_lt h1, Nat.lt_succ_of_lt h2r⟩

theorem length_descRun (n : Nat) : (descRun n).length = n := by
  induction n with
  | zero => rfl
  | succ m ih => simp [descRun, ih]

theorem sorted_descRun (n : Nat) : RankSorted (descRun n) := by
  induction n with
  | zero => exact List.Pairwise.nil
  | succ m ih =>
      unfold RankSorted at ih ⊢
      rw [descRun, List.pairwise_cons]
      exact ⟨fun b hb => (mem_descRun hb).2, ih⟩

theorem mem_take_descRun {e : Entry Nat} {c : Nat} :
    ∀ {n : Nat}, e ∈ (descRun n).take c → n ≤ e.key + c := by
  induction c with
  | zero =>
      intro n h
      simp at h
  | succ c ih =>
      intro n h
      cases n with
      | zero =>
          simp [descRun] at h
      | succ m =>
          rw [descRun, List.take_succ_cons] at h
          rcases List.mem_cons.mp h with rfl | h2
          · show m + 1 ≤ m + (c + 1)
            omega
          · have := ih h2
            omega

theorem putSeq_range_le {c : Nat} (hc : 0 < c) :
    ∀ n, n ≤ 2 * c →
      putSeq (emptyLRU Nat c true) (List.range n) =
        ⟨c, true, n, descRun n, n⟩ := by
  intro n
  induction n with
  | zero =>
      intro _
      rfl
  | succ m ih =>
      intro hle
      rw [List.range_succ, putSeq_append, ih (by omega)]
      show putRaw ⟨c, true, m, descRun m, m⟩ m (mkObj m) =
        ⟨c, true, m + 1, descRun (m + 1), m + 1⟩
      have herase : eraseKey (descRun m) m = descRun m := by
        apply eraseKey_eq_self
        intro e he
        exact Nat.ne_of_lt (mem_descRun he).1
      have hgrow : (grow (⟨c, true, m, descRun m, m⟩ : LRU Nat) m
          (mkObj m)).entries = descRun (m + 1) := by
        show (⟨m, mkObj m, m⟩ : Entry Nat) :: eraseKey (descRun m) m =
          descRun (m + 1)
        rw [herase, descRun]
      have hlen : (grow (⟨c, true, m, descRun m, m⟩ : LRU Nat) m
          (mkObj m)).entries.length = m + 1 := by
        rw [hgrow, length_descRun]
      unfold putRaw
      rw [if_neg (by rw [hlen]; show ¬ 2 * c < m + 1; omega)]
      show (⟨c, true, m + 1, (⟨m, mkObj m, m⟩ : Entry Nat) ::
        eraseKey (descRun m) m, m + 1⟩ : LRU Nat) = _
      rw [herase]
      rfl

theorem putSeq_range_compaction {c : Nat} (hc : 0 < c) :
    putSeq (emptyLRU Nat c true) (List.range (2 * c + 1)) =
      ⟨c, true, 2 * c + 1, (descRun (2 * c + 1)).take c, 2 * c + 2⟩ := by
  rw [List.range_succ, putSeq_append, putSeq_range_le hc (2 * c) (le_refl _)]
  show putRaw ⟨c, true, 2 * c, descRun (2 * c), 2 * c⟩ (2 * c)
      (mkObj (2 * c)) = _
  have herase : eraseKey (descRun (2 * c)) (2 * c) = descRun (2 * c) := by
    apply eraseKey_eq_self
    intro e he
    exact Nat.ne_of_lt (mem_descRun he).1
  have hgrow : (grow (⟨c, true, 2 * c, descRun (2 * c), 2 * c⟩ : LRU Nat)
      (2 * c) (mkObj (2 * c))).entries = descRun (2 * c + 1) := by
    show (⟨2 * c, mkObj (2 * c), 2 * c⟩ : Entry Nat) ::
      eraseKey (descRun (2 * c)) (2 * c) = descRun (2 * c + 1)
    rw [herase, descRun]
  have hlen : (grow (⟨c, true, 2 * c, descRun (2 * c), 2 * c⟩ : LRU Nat)
      (2 * c) (mkObj (2 * c))).entries.length = 2 * c + 1 := by
    rw [hgrow, length_descRun]
  unfold putRaw
  rw [if_pos (by rw [hlen]; show 2 * c < 2 * c + 1; omega)]
  unfold compact
  rw [hgrow, sortRankDesc_eq_self (sorted_descRun _)]
  rfl

/-! ### Auxiliary facts used by the claim theorems -/

theorem wf_size_le {s : LRU κ} (h : Wf s) : size s ≤ 2 * s.capacity := by
  unfold Wf at h
  exact h.2.2.2

theorem sorted_take_drop {l : List (Entry κ)} {n : Nat} (h : RankSorted l)
    {a b : Entry κ} (ha : a ∈ l.take n) (hb : b ∈ l.drop n) :
    b.rank < a.rank := by
  unfold RankSorted at h
  have h2 : List.Pairwise (fun a b => b.rank < a.rank)
      (l.take n ++ l.drop n) := by
    rw [List.take_append_drop]
    exact h
  exact (List.pairwise_append.mp h2).2.2 a ha b hb

theorem touch_capacity (s : LRU κ) (k : κ) :
    (touch s k).1.capacity = s.capacity := by
  unfold touch
  cases findEntry s k <;> rfl

theorem removeKey_capacity (s : LRU κ) (k : κ) :
    (removeKey s k).1.capacity = s.capacity := by
  unfold removeKey
  cases findEntry s k <;> rfl

theorem getD_capacity (s : LRU κ) (k : κ) (d : Option Obj) :
    (getD s k d).1.capacity = s.capacity := by
  unfold getD
  cases findEntry s k
  · rfl
  · exact touch_capacity s k

theorem gcCollect_capacity (dead : Obj → Bool) (s : LRU κ) :
    (gcCollect dead s).capacity = s.capacity := by
  unfold gcCollect
  split <;> rfl

theorem put_capacity {s s2 : LRU κ} {k : κ} {p : Obj}
    (h : put s k p = .ok s2) : s2.capacity = s.capacity := by
  unfold put at h
  split at h
  · exact Except.noConfusion h
  · injection h with h2
    rw [← h2, putRaw_capacity]

theorem updatePairs_capacity {ps : List (κ × Obj)} :
    ∀ {s s2 : LRU κ}, updatePairs s ps = .ok s2 →
      s2.capacity = s.capacity := by
  induction ps with
  | nil =>
      intro s s2 h
      unfold updatePairs at h
      injection h with h2
      rw [h2]
  | cons kp rest ih =>
      intro s s2 h
      obtain ⟨k0, p0⟩ := kp
      unfold updatePairs at h
      cases hput : put s k0 p0 with
      | error e =>
          rw [hput] at h
          exact Except.noConfusion h
      | ok s3 =>
          rw [hput] at h
          rw [ih h, put_capacity hput]

theorem key_zero_absent_after_compaction {c : Nat} (hc : 0 < c) :
    keyPresent (putSeq (emptyLRU Nat c true) (List.range (2 * c + 1))) 0
      = false := by
  rw [putSeq_range_compaction hc, keyPresent_false_iff]
  intro e he
  have h2 := mem_take_descRun (n := 2 * c + 1) he
  omega

theorem scenario_first_absent {c : Nat} (hc : 0 < c) :
    keyPresent (putSeq (emptyLRU Nat c true) (List.range (3 * c))) 0
      = false := by
  have hsplit : List.range (3 * c) =
      List.range (2 * c + 1) ++
        (List.range (c - 1)).map (fun j => 2 * c + 1 + j) := by
    have h3 : 3 * c = (2 * c + 1) + (c - 1) := by omega
    rw [h3, List.range_add]
  rw [hsplit, putSeq_append]
  apply keyPresent_putSeq_other (key_zero_absent_after_compaction hc)
  intro k2 hk2
  simp only [List.mem_map] at hk2
  obtain ⟨j, _, hj⟩ := hk2
  omega

theorem scenario_last_present {c : Nat} (hc : 0 < c) :
    keyPresent (putSeq (emptyLRU Nat c true) (List.range (3 * c)))
      (3 * c - 1) = true := by
  obtain ⟨m, hm⟩ : ∃ m, 3 * c = m + 1 := ⟨3 * c - 1, by omega⟩
  have hwf : Wf (putSeq (emptyLRU Nat c true) (List.range m)) :=
    putSeq_wf (wf_emptyLRU c true)
  have hcap : (putSeq (emptyLRU Nat c true) (List.range m)).capacity = c :=
    putSeq_capacity _ _
  have hidx : 3 * c - 1 = m := by omega
  rw [hidx, hm, List.range_succ, putSeq_append]
  show keyPresent
      (putRaw (putSeq (emptyLRU Nat c true) (List.range m)) m (mkObj m)) m
      = true
  exact keyPresent_putRaw_self hwf (by rw [hcap]; exact hc)

theorem key_unique {l : List (Entry κ)}
    (h : l.Pairwise (fun a b => a.key ≠ b.key)) {e1 e2 : Entry κ}
    (h1 : e1 ∈ l) (h2 : e2 ∈ l) (hk : e1.key = e2.key) : e1 = e2 := by
  induction l with
  | nil => cases h1
  | cons x xs ih =>
      rw [List.pairwise_cons] at h
      rcases List.mem_cons.mp h1 with rfl | h1m
      · rcases List.mem_cons.mp h2 with rfl | h2m
        · rfl
        · exact absurd hk (h.1 e2 h2m)
      · rcases List.mem_cons.mp h2 with rfl | h2m
        · exact absurd hk.symm (h.1 e1 h1m)
        · exact ih h.2 h1m h2m

theorem length_filter_not_add {β : Type} (p : β → Bool) (l : List β) :
    (l.filter (fun x => !(p x))).length + (l.filter p).length
      = l.length := by
  induction l with
  | nil => rfl
  | cons x xs ih =>
      by_cases h : p x = true
      · simp only [List.filter_cons, h, Bool.not_true, if_pos, if_neg]
        simp [h]
        omega
      · simp only [List.filter_cons]
        simp [h]
        omega

theorem removeKey_absent {s : LRU κ} {k : κ} (h : findEntry s k = none) :
    removeKey s k = (s, none) := by
  unfold removeKey
  rw [h]

theorem findEntry_removeKey (s : LRU κ) (k : κ) :
    findEntry (removeKey s k).1 k = none := by
  cases hfind : findEntry s k with
  | none =>
      have h1 : (removeKey s k).1 = s := by
        unfold removeKey
        rw [hfind]
      rw [h1, hfind]
  | some e =>
      have h3 : (removeKey s k).1.entries = eraseKey s.entries k := by
        unfold removeKey
        rw [hfind]
      rw [findEntry_eq_none, h3]
      intro e2 he2
      exact (mem_eraseKey.mp he2).2

theorem iterNext_error {s : LRU κ} {it : LRUIter κ}
    (h : it.version ≠ s.version) :
    iterNext s it = .error .concurrentModification := by
  unfold iterNext
  rw [if_neg h]

theorem removeKey_version_present {s : LRU κ} {k : κ}
    (h : keyPresent s k = true) :
    (removeKey s k).1.version = s.version + 1 := by
  cases hfind : findEntry s k with
  | none =>
      unfold keyPresent at h
      rw [hfind] at h
      exact absurd h (by simp)
  | some e =>
      unfold removeKey
      rw [hfind]

theorem touch_version_present {s : LRU κ} {k : κ}
    (h : keyPresent s k = true) :
    (touch s k).1.version = s.version + 1 := by
  cases hfind : findEntry s k with
  | none =>
      unfold keyPresent at h
      rw [hfind] at h
      exact absurd h (by simp)
  | some e =>
      unfold touch
      rw [hfind]

/-! ### Claim theorems -/

/-- C1: for every container with positive capacity, after every public
operation the live size satisfies 0 ≤ size ≤ 2 × capacity (size is a Nat,
so 0 ≤ size holds by type); an insertion that grows size beyond
2 × capacity compacts to exactly capacity entries, retaining the capacity
entries of highest recency rank and discarding only strictly older ones;
and inserting 3 × capacity distinct keys in order into a fresh container
leaves the first key absent and the last key present. -/
theorem C1_size_invariant_and_compaction :
    (∀ (α : Type) (inst : DecidableEq α) (s : LRU α), Wf s →
      (∀ k p, size (putRaw s k p) ≤ 2 * s.capacity) ∧
      (∀ k, size (touch s k).1 ≤ 2 * s.capacity) ∧
      (∀ k, size (removeKey s k).1 ≤ 2 * s.capacity) ∧
      (∀ k d, size (getD s k d).1 ≤ 2 * s.capacity) ∧
      (∀ dead, size (gcCollect dead s) ≤ 2 * s.capacity) ∧
      size (clear s) ≤ 2 * s.capacity ∧
      (∀ ps s2, updatePairs s ps = .ok s2 → size s2 ≤ 2 * s2.capacity)) ∧
    (∀ (α : Type) (inst : DecidableEq α) (s : LRU α) (k : α) (p : Obj),
      Wf s → 0 < s.capacity → keyPresent s k = false →
      size s = 2 * s.capacity →
      size (putRaw s k p) = s.capacity ∧
      (∀ e ∈ (putRaw s k p).entries, e ∈ (grow s k p).entries) ∧
      (∀ e ∈ (grow s k p).entries, e ∉ (putRaw s k p).entries →
        ∀ e2 ∈ (putRaw s k p).entries, e.rank < e2.rank)) ∧
    (∀ c : Nat, 0 < c →
      keyPresent (putSeq (emptyLRU Nat c true) (List.range (3 * c))) 0
        = false ∧
      keyPresent (putSeq (emptyLRU Nat c true) (List.range (3 * c)))
        (3 * c - 1) = true) := by
  refine ⟨?_, ?_, ?_⟩
  · intro α inst s hwf
    refine ⟨?_, ?_, ?_, ?_, ?_, ?_, ?_⟩
    · intro k p
      have h := wf_size_le (putRaw_wf k p hwf)
      rw [putRaw_capacity] at h
      exact h
    · intro k
      have h := wf_size_le (touch_wf k hwf)
      rw [touch_capacity] at h
      exact h
    · intro k
      have h := wf_size_le (removeKey_wf k hwf)
      rw [removeKey_capacity] at h
      exact h
    · intro k d
      have h := wf_size_le (getD_wf k d hwf)
      rw [getD_capacity] at h
      exact h
    · intro dead
      have h := wf_size_le (gcCollect_wf dead hwf)
      rw [gcCollect_capacity] at h
      exact h
    · exact wf_size_le (clear_wf s)
    · intro ps s2 hok
      exact wf_size_le (updatePairs_wf hwf hok)
  · intro α inst s k p hwf hc habs hsize
    have habs2 : ∀ e ∈ s.entries, e.key ≠ k := keyPresent_false_iff.mp habs
    have herase : eraseKey s.entries k = s.entries := eraseKey_eq_self habs2
    have hwf2 := hwf
    unfold Wf at hwf2
    obtain ⟨hs, hr, hk, hl⟩ := hwf2
    have hgs : RankSorted (grow s k p).entries := grow_sorted hs hr
    have hglen : (grow s k p).entries.length = 2 * s.capacity + 1 := by
      show ((⟨k, p, s.counter⟩ : Entry α) :: eraseKey s.entries k).length = _
      rw [herase, List.length_cons]
      unfold size at hsize
      omega
    have hcond : 2 * s.capacity < (grow s k p).entries.length := by
      rw [hglen]
      omega
    have hput : putRaw s k p = compact (grow s k p) := by
      unfold putRaw
      rw [if_pos hcond]
    have hentries : (putRaw s k p).entries =
        (grow s k p).entries.take s.capacity := by
      rw [hput, compact_entries hgs]
      have hcap : (grow s k p).capacity = s.capacity := rfl
      rw [hcap]
    refine ⟨?_, ?_, ?_⟩
    · show (putRaw s k p).entries.length = s.capacity
      rw [hentries, List.length_take, hglen]
      omega
    · intro e he
      rw [hentries] at he
      exact (List.take_sublist _ _).subset he
    · intro e he hnot e2 he2
      rw [hentries] at hnot he2
      have hdrop : e ∈ (grow s k p).entries.drop s.capacity := by
        have hsplit := List.take_append_drop s.capacity (grow s k p).entries
        rw [← hsplit] at he
        rcases List.mem_append.mp he with h1 | h1
        · exact absurd h1 hnot
        · exact h1
      exact sorted_take_drop hgs he2 hdrop
  · intro c hc
    exact ⟨scenario_first_absent hc, scenario_last_present hc⟩

/-- Witness for C1 at concrete inputs: a well-formed 2-entry container of
capacity 1 compacts to size 1 on a fresh insert, and inserting 3 distinct
keys into a fresh capacity-1 container evicts key 0 and keeps key 2. -/
theorem C1_witness :
    size (putRaw (⟨1, true, 2, descRun 2, 2⟩ : LRU Nat) 5 (mkObj 5)) = 1 ∧
    (keyPresent (putSeq (emptyLRU Nat 1 true) (List.range (3 * 1))) 0
        = false ∧
      keyPresent (putSeq (emptyLRU Nat 1 true) (List.range (3 * 1)))
        (3 * 1 - 1) = true) := by
  constructor
  · exact (C1_size_invariant_and_compaction.2.1 Nat inferInstance
      (⟨1, true, 2, descRun 2, 2⟩ : LRU Nat) 5 (mkObj 5)
      (by decide) (by decide) (by decide) (by decide)).1
  · exact C1_size_invariant_and_compaction.2.2 1 (by decide)

/-- C2: in weak mode, once a stored payload has no other owner and the
host garbage collector runs (modelled by the `dead` predicate holding for
exactly the payloads with no remaining external owner), its entry becomes
absent from membership and from iteration and the size decreases by the
number of collected entries; a payload kept alive by another owner keeps
its entry present and counted. -/
theorem C2_weak_mode_collection :
    ∀ (α : Type) (inst : DecidableEq α) (s : LRU α) (dead : Obj → Bool),
      s.weak = true → Wf s →
      (∀ e ∈ s.entries, dead e.payload = true →
        keyPresent (gcCollect dead s) e.key = false ∧
        e ∉ (iterStart (gcCollect dead s)).remaining) ∧
      (∀ e ∈ s.entries, dead e.payload = false →
        e ∈ (gcCollect dead s).entries ∧
        keyPresent (gcCollect dead s) e.key = true) ∧
      size (gcCollect dead s) +
        (s.entries.filter (fun e => dead e.payload)).length = size s := by
  intro α inst s dead hw hwf
  unfold Wf at hwf
  obtain ⟨hs, hr, hk, hl⟩ := hwf
  have hgc : (gcCollect dead s).entries =
      s.entries.filter (fun e => !(dead e.payload)) := by
    unfold gcCollect
    rw [if_pos hw]
  refine ⟨?_, ?_, ?_⟩
  · intro e he hdead
    constructor
    · rw [keyPresent_false_iff, hgc]
      intro e2 he2 hkey
      have hm := List.mem_filter.mp he2
      have heq : e2 = e := key_unique hk hm.1 he hkey
      rw [heq, hdead] at hm
      simp at hm
    · show e ∉ (gcCollect dead s).entries
      rw [hgc]
      intro hmem
      have hm := List.mem_filter.mp hmem
      rw [hdead] at hm
      simp at hm
  · intro e he halive
    have hmem : e ∈ (gcCollect dead s).entries := by
      rw [hgc]
      exact List.mem_filter.mpr ⟨he, by rw [halive]; rfl⟩
    exact ⟨hmem, keyPresent_true_iff.mpr ⟨e, hmem, rfl⟩⟩
  · show (gcCollect dead s).entries.length + _ = s.entries.length
    rw [hgc]
    exact length_filter_not_add _ _

/-- Witness for C2: in a weak two-element container, collecting the
payload with id 0 removes its entry and halves the size, while the
payload with id 1 (still owned) stays present. -/
theorem C2_witness :
    keyPresent
      (gcCollect (fun o => decide (o.id = 0))
        (⟨2, true, 2, descRun 2, 0⟩ : LRU Nat)) 0 = false ∧
    keyPresent
      (gcCollect (fun o => decide (o.id = 0))
        (⟨2, true, 2, descRun 2, 0⟩ : LRU Nat)) 1 = true ∧
    size (gcCollect (fun o => decide (o.id = 0))
        (⟨2, true, 2, descRun 2, 0⟩ : LRU Nat)) + 1 = 2 := by
  have h := C2_weak_mode_collection Nat inferInstance
    (⟨2, true, 2, descRun 2, 0⟩ : LRU Nat) (fun o => decide (o.id = 0))
    rfl (by decide)
  refine ⟨?_, ?_, ?_⟩
  · exact (h.1 ⟨0, mkObj 0, 0⟩ (by decide) (by decide)).1
  · exact (h.2.1 ⟨1, mkObj 1, 1⟩ (by decide) (by decide)).2
  · exact h.2.2

/-- C3: the weak flag defaults to true: a container constructed without
an explicit weak argument is in weak mode and rejects payloads whose type
is not weakly observable with a type error on insert, while a container
constructed with weak = false accepts any payload and is never evicted by
external collection of its payloads. -/
theorem C3_weak_default_and_strong_mode :
    (∀ (α : Type) (inst : DecidableEq α) (cap : CapArg) (s : LRU α),
      mkLRUDefault α cap = .ok s →
      s.weak = true ∧
      ∀ k p, p.weakrefable = false → put s k p = .error .typeError) ∧
    (∀ (α : Type) (inst : DecidableEq α) (s : LRU α), s.weak = false →
      (∀ k p, put s k p = .ok (putRaw s k p)) ∧
      (∀ dead, gcCollect dead s = s)) := by
  constructor
  · intro α inst cap s hok
    have hw : s.weak = true := by
      cases cap with
      | int n =>
          simp only [mkLRUDefault, mkLRU] at hok
          split at hok
          · exact Except.noConfusion hok
          · injection hok with h2
            rw [← h2]
      | str t => exact Except.noConfusion hok
      | other => exact Except.noConfusion hok
    refine ⟨hw, ?_⟩
    intro k p hp
    unfold put
    rw [hw, hp]
    rfl
  · intro α inst s hw
    constructor
    · intro k p
      unfold put
      rw [hw]
      rfl
    · intro dead
      unfold gcCollect
      rw [hw]
      rfl

/-- Witness for C3: the default-constructed container has weak = true and
rejects an int payload, while a strong container accepts it and survives
collection untouched. -/
theorem C3_witness :
    put (⟨3, true, 0, [], 0⟩ : LRU Nat) 0 ⟨42, false⟩
      = .error .typeError ∧
    put (⟨3, false, 0, [], 0⟩ : LRU Nat) 0 ⟨42, false⟩
      = .ok (putRaw (⟨3, false, 0, [], 0⟩ : LRU Nat) 0 ⟨42, false⟩) ∧
    gcCollect (fun _ => true) (⟨3, false, 0, [], 0⟩ : LRU Nat)
      = (⟨3, false, 0, [], 0⟩ : LRU Nat) := by
  have h1 := (C3_weak_default_and_strong_mode.1 Nat inferInstance
    (.int 3) (⟨3, true, 0, [], 0⟩ : LRU Nat) rfl).2 0 ⟨42, false⟩ rfl
  have h2 := C3_weak_default_and_strong_mode.2 Nat inferInstance
    (⟨3, false, 0, [], 0⟩ : LRU Nat) rfl
  exact ⟨h1, h2.1 0 ⟨42, false⟩, h2.2 (fun _ => true)⟩

/-- C4: in weak mode an insert whose payload type does not support weak
observation fails with a type error surfaced to that insert call (also
through the update path); no successor state is produced, so the
container the caller holds is unchanged, and the insert is never
downgraded to strong storage. -/
theorem C4_weak_insert_type_error :
    ∀ (α : Type) (inst : DecidableEq α) (s : LRU α) (k : α) (p : Obj),
      s.weak = true → p.weakrefable = false →
      put s k p = .error .typeError ∧
      updatePairs s [(k, p)] = .error .typeError ∧
      ∀ s2, put s k p ≠ .ok s2 := by
  intro α inst s k p hw hp
  have hput : put s k p = .error .typeError := by
    unfold put
    rw [hw, hp]
    rfl
  refine ⟨hput, ?_, ?_⟩
  · unfold updatePairs
    rw [hput]
  · intro s2 h
    rw [hput] at h
    exact Except.noConfusion h

/-- Witness for C4: a weak container rejects a non-weakrefable payload
through both the direct insert and the update path. -/
theorem C4_witness :
    put (⟨2, true, 0, [], 0⟩ : LRU Nat) 7 ⟨42, false⟩
      = .error .typeError ∧
    updatePairs (⟨2, true, 0, [], 0⟩ : LRU Nat) [(7, ⟨42, false⟩)]
      = .error .typeError := by
  have h := C4_weak_insert_type_error Nat inferInstance
    (⟨2, true, 0, [], 0⟩ : LRU Nat) 7 ⟨42, false⟩ rfl rfl
  exact ⟨h.1, h.2.1⟩

/-- C5: any structural mutation performed while an iteration over the
same container is open (an insert, a removal of a present key, a recency
refresh of a present key — the read path that may compact — or a clear)
makes the next advance of that open iteration fail with the
concurrent-modification error instead of yielding further elements. -/
theorem C5_concurrent_modification :
    ∀ (α : Type) (inst : DecidableEq α) (s : LRU α) (it : LRUIter α),
      it.version = s.version →
      (∀ k p, iterNext (putRaw s k p) it
        = .error .concurrentModification) ∧
      (∀ k, keyPresent s k = true →
        iterNext (removeKey s k).1 it = .error .concurrentModification) ∧
      (∀ k, keyPresent s k = true →
        iterNext (touch s k).1 it = .error .concurrentModification) ∧
      iterNext (clear s) it = .error .concurrentModification := by
  intro α inst s it hv
  refine ⟨?_, ?_, ?_, ?_⟩
  · intro k p
    apply iterNext_error
    rw [hv]
    exact Nat.ne_of_lt (putRaw_version_gt s k p)
  · intro k hkp
    apply iterNext_error
    rw [hv, removeKey_version_present hkp]
    omega
  · intro k hkp
    apply iterNext_error
    rw [hv, touch_version_present hkp]
    omega
  · apply iterNext_error
    rw [hv]
    show s.version ≠ s.version + 1
    omega

/-- Witness for C5: an iteration opened on a one-element container fails
on its next advance after an insert and after a removal. -/
theorem C5_witness :
    iterNext (putRaw (⟨2, true, 1, descRun 1, 0⟩ : LRU Nat) 9 (mkObj 9))
      (iterStart (⟨2, true, 1, descRun 1, 0⟩ : LRU Nat))
      = .error .concurrentModification ∧
    iterNext (removeKey (⟨2, true, 1, descRun 1, 0⟩ : LRU Nat) 0).1
      (iterStart (⟨2, true, 1, descRun 1, 0⟩ : LRU Nat))
      = .error .concurrentModification := by
  have h := C5_concurrent_modification Nat inferInstance
    (⟨2, true, 1, descRun 1, 0⟩ : LRU Nat)
    (iterStart (⟨2, true, 1, descRun 1, 0⟩ : LRU Nat)) rfl
  exact ⟨h.1 9 (mkObj 9), h.2.1 0 (by decide)⟩

/-- C6: constructing with a non-integer capacity, or with an integer
capacity that is zero or negative, fails with a configuration error at
construction time; any positive integer capacity succeeds, and the
capacity is fixed for the container lifetime: no public operation
changes it. -/
theorem C6_construction_validation :
    (∀ (α : Type) (n : Int) (w : Bool), 0 < n →
      mkLRU α (.int n) w = .ok ⟨n.toNat, w, 0, [], 0⟩) ∧
    (∀ (α : Type) (n : Int) (w : Bool), n ≤ 0 →
      mkLRU α (.int n) w = .error .valueError) ∧
    (∀ (α : Type) (t : String) (w : Bool),
      mkLRU α (.str t) w = .error .typeError) ∧
    (∀ (α : Type) (w : Bool), mkLRU α .other w = .error .typeError) ∧
    (∀ (α : Type) (inst : DecidableEq α) (s : LRU α),
      (∀ k p, (putRaw s k p).capacity = s.capacity) ∧
      (∀ k, (touch s k).1.capacity = s.capacity) ∧
      (∀ k, (removeKey s k).1.capacity = s.capacity) ∧
      (∀ k d, (getD s k d).1.capacity = s.capacity) ∧
      (clear s).capacity = s.capacity ∧
      (∀ dead, (gcCollect dead s).capacity = s.capacity) ∧
      (∀ ps s2, updatePairs s ps = .ok s2 → s2.capacity = s.capacity)) := by
  refine ⟨?_, ?_, ?_, ?_, ?_⟩
  · intro α n w hn
    simp only [mkLRU]
    rw [if_neg (by omega)]
  · intro α n w hn
    simp only [mkLRU]
    rw [if_pos hn]
  · intro α t w
    rfl
  · intro α w
    rfl
  · intro α inst s
    exact ⟨fun k p => putRaw_capacity s k p, fun k => touch_capacity s k,
      fun k => removeKey_capacity s k, fun k d => getD_capacity s k d,
      rfl, fun dead => gcCollect_capacity dead s,
      fun ps s2 h => updatePairs_capacity h⟩

/-- Witness for C6: capacity 5 succeeds, capacity 0 is a value error. -/
theorem C6_witness :
    mkLRU Nat (.int 5) true = .ok ⟨Int.toNat 5, true, 0, [], 0⟩ ∧
    mkLRU Nat (.int 0) true = .error .valueError := by
  exact ⟨C6_construction_validation.1 Nat 5 true (by decide),
    C6_construction_validation.2.1 Nat 0 true (by decide)⟩

/-- C7: not-found is never an error: removal of an absent key is a
silent no-op that returns the unchanged state, removal is idempotent,
and get of an absent key returns the supplied default with the state
unchanged; all of these paths are total functions in the model, so none
of them can raise. -/
theorem C7_not_found_is_silent :
    ∀ (α : Type) (inst : DecidableEq α) (s : LRU α) (k : α)
      (d : Option Obj),
      (findEntry s k = none → removeKey s k = (s, none)) ∧
      removeKey (removeKey s k).1 k = ((removeKey s k).1, none) ∧
      (findEntry s k = none → getD s k d = (s, d)) := by
  intro α inst s k d
  refine ⟨?_, ?_, ?_⟩
  · exact fun h => removeKey_absent h
  · exact removeKey_absent (findEntry_removeKey s k)
  · intro h
    unfold getD
    rw [h]

/-- Witness for C7: discarding and reading an absent key on an empty
container are silent. -/
theorem C7_witness :
    removeKey (emptyLRU Nat 3 true) 0 = (emptyLRU Nat 3 true, none) ∧
    getD (emptyLRU Nat 3 true) 0 (some (mkObj 5))
      = (emptyLRU Nat 3 true, some (mkObj 5)) := by
  have h := C7_not_found_is_silent Nat inferInstance (emptyLRU Nat 3 true)
    0 (some (mkObj 5))
  exact ⟨h.1 rfl, h.2.2 rfl⟩

/-- C8: overwriting a live key replaces its payload, gives it the
freshest recency rank (the current counter, which bounds every rank in
the container), and leaves the total size unchanged. -/
theorem C8_overwrite_preserves_size :
    ∀ (α : Type) (inst : DecidableEq α) (s : LRU α) (k : α) (p : Obj),
      Wf s → keyPresent s k = true →
      size (putRaw s k p) = size s ∧
      findEntry (putRaw s k p) k = some ⟨k, p, s.counter⟩ ∧
      ∀ e ∈ (putRaw s k p).entries, e.rank ≤ s.counter := by
  intro α inst s k p hwf hkp
  have hwf2 := hwf
  unfold Wf at hwf2
  obtain ⟨hs, hr, hk, hl⟩ := hwf2
  obtain ⟨e0, he0, hkey0⟩ := keyPresent_true_iff.mp hkp
  have hlen : (grow s k p).entries.length = s.entries.length := by
    show ((⟨k, p, s.counter⟩ : Entry α) :: eraseKey s.entries k).length = _
    rw [List.length_cons]
    exact length_eraseKey_add_one hk he0 hkey0
  have hput : putRaw s k p = grow s k p := by
    unfold putRaw
    rw [if_neg (by rw [hlen]; omega)]
  refine ⟨?_, ?_, ?_⟩
  · show (putRaw s k p).entries.length = s.entries.length
    rw [hput, hlen]
  · rw [hput]
    show List.find? (fun e => decide (e.key = k))
      ((⟨k, p, s.counter⟩ : Entry α) :: eraseKey s.entries k) = _
    apply List.find?_cons_of_pos
    simp
  · intro e he
    rw [hput] at he
    rcases mem_grow he with rfl | ⟨hmem, _⟩
    · exact le_refl _
    · exact le_of_lt (hr e hmem)

/-- Witness for C8: overwriting key 1 in a two-element container keeps
size 2 and stores the new payload at the freshest rank. -/
theorem C8_witness :
    size (putRaw (⟨2, true, 2, descRun 2, 0⟩ : LRU Nat) 1 (mkObj 9))
      = size (⟨2, true, 2, descRun 2, 0⟩ : LRU Nat) ∧
    findEntry (putRaw (⟨2, true, 2, descRun 2, 0⟩ : LRU Nat) 1 (mkObj 9)) 1
      = some ⟨1, mkObj 9, 2⟩ := by
  have h := C8_overwrite_preserves_size Nat inferInstance
    (⟨2, true, 2, descRun 2, 0⟩ : LRU Nat) 1 (mkObj 9)
    (by decide) (by decide)
  exact ⟨h.1, h.2.1⟩

/-- C9: equality between two set-facade instances compares only their
live element sets, with capacity and weak configuration ignored, and the
set-algebra comparisons are computed against the current live element
sets of both operands. -/
theorem C9_set_equality_and_algebra :
    (∀ a b : LRU Obj,
      eqInst a b = true ↔ ∀ x, x ∈ elems a ↔ x ∈ elems b) ∧
    (∀ (a b : LRU Obj) (c1 c2 : Nat) (w1 w2 : Bool),
      eqInst ⟨c1, w1, a.counter, a.entries, a.version⟩
        ⟨c2, w2, b.counter, b.entries, b.version⟩ = eqInst a b) ∧
    (∀ (a : LRU Obj) (t : List Obj),
      (subsetOfList a t = true ↔ ∀ x ∈ elems a, x ∈ t) ∧
      (supersetOfList a t = true ↔ ∀ x ∈ t, x ∈ elems a) ∧
      (ltList a t = true ↔
        ((∀ x ∈ elems a, x ∈ t) ∧ ¬(∀ x ∈ t, x ∈ elems a))) ∧
      (gtList a t = true ↔
        ((∀ x ∈ t, x ∈ elems a) ∧ ¬(∀ x ∈ elems a, x ∈ t))) ∧
      (isDisjointList a t = true ↔ ∀ x ∈ elems a, x ∉ t)) := by
  have hsub : ∀ (a : LRU Obj) (t : List Obj),
      subsetOfList a t = true ↔ ∀ x ∈ elems a, x ∈ t := by
    intro a t
    unfold subsetOfList
    simp [List.all_eq_true]
  have hsup : ∀ (a : LRU Obj) (t : List Obj),
      supersetOfList a t = true ↔ ∀ x ∈ t, x ∈ elems a := by
    intro a t
    unfold supersetOfList
    simp [List.all_eq_true]
  refine ⟨?_, ?_, ?_⟩
  · intro a b
    unfold eqInst
    rw [Bool.and_eq_true, hsub, hsub]
    constructor
    · rintro ⟨h1, h2⟩ x
      exact ⟨fun hx => h1 x hx, fun hx => h2 x hx⟩
    · intro h
      exact ⟨fun x hx => (h x).mp hx, fun x hx => (h x).mpr hx⟩
  · intro a b c1 c2 w1 w2
    rfl
  · intro a t
    refine ⟨hsub a t, hsup a t, ?_, ?_, ?_⟩
    · unfold ltList
      rw [Bool.and_eq_true, hsub]
      constructor
      · rintro ⟨h1, h2⟩
        refine ⟨h1, fun hx => ?_⟩
        rw [(hsup a t).mpr hx] at h2
        simp at h2
      · rintro ⟨h1, h2⟩
        refine ⟨h1, ?_⟩
        cases hh : supersetOfList a t
        · rfl
        · exact absurd ((hsup a t).mp hh) h2
    · unfold gtList
      rw [Bool.and_eq_true, hsup]
      constructor
      · rintro ⟨h1, h2⟩
        refine ⟨h1, fun hx => ?_⟩
        rw [(hsub a t).mpr hx] at h2
        simp at h2
      · rintro ⟨h1, h2⟩
        refine ⟨h1, ?_⟩
        cases hh : subsetOfList a t
        · rfl
        · exact absurd ((hsub a t).mp hh) h2
    · unfold isDisjointList
      simp [List.all_eq_true]

/-- Witness for C9: two instances with differing capacity, weak flag,
counters, ranks and versions but the same single live element are
equal. -/
theorem C9_witness :
    eqInst (⟨3, true, 5, [⟨mkObj 1, mkObj 1, 0⟩], 0⟩ : LRU Obj)
      (⟨7, false, 9, [⟨mkObj 1, mkObj 1, 4⟩], 2⟩ : LRU Obj) = true := by
  apply (C9_set_equality_and_algebra.1 _ _).mpr
  exact fun x => Iff.rfl

/-- C10: capacity validation distinguishes the failure kinds, for both
the set and the map facade: a non-integer capacity (the string "5")
raises the TypeError class while the integer capacities 0 and -1 raise
the ValueError class, and the two classes are distinct. -/
theorem C10_error_classes :
    mkLRU Obj (.str "5") true = .error .typeError ∧
    mkLRU Obj (.int 0) true = .error .valueError ∧
    mkLRU Obj (.int (-1)) true = .error .valueError ∧
    mkLRU Nat (.str "5") true = .error .typeError ∧
    mkLRU Nat (.int 0) true = .error .valueError ∧
    mkLRU Nat (.int (-1)) true = .error .valueError ∧
    LruError.typeError ≠ LruError.valueError := by
  refine ⟨rfl, ?_, ?_, rfl, ?_, ?_, by decide⟩
  all_goals
    simp only [mkLRU]
    rw [if_pos (by decide)]

end YumakoLru
